import Mathlib

/-!
Verification of the assetid repository: a build-time asset pipeline
(`processAssets` in main.go) that fingerprints files by content hash,
minifies JavaScript, writes renamed files to an output directory and emits
a JSON manifest; and a runtime resolver (`assetid/assets_loader.go`) that
loads the manifest and maps original asset paths to fingerprinted ones.

The Go code is shallowly embedded: the filesystem is a pure association
list from path to content, external collaborators (the crypto/md5 digest,
the tdewolff/minify JavaScript minifier, and the possibility of write
failures in the OS) are parameters gathered in `ExternalOps`, and every
fallible operation returns `Except String`.  Byte sequences are `List Nat`
values and paths are `String` values manipulated through their character
lists.
-/

namespace Assetid

/-! ## Bytes and hex encoding -/

/-- Byte sequences (each entry is one byte). -/
abbrev Bytes := List Nat

/-- One lowercase hexadecimal digit, as produced by Go `fmt.Sprintf("%x", _)`. -/
def hexDigit (n : Nat) : Char :=
  if n < 10 then Char.ofNat (48 + n) else Char.ofNat (87 + n)

/-- Lowercase hex encoding of a byte list: two hex digits per byte, high
nibble first, as produced by Go `fmt.Sprintf("%x", hash.Sum(nil))`. -/
def hexEncodeList : Bytes → List Char
  | [] => []
  | b :: bs => hexDigit (b / 16 % 16) :: hexDigit (b % 16) :: hexEncodeList bs

/-! ## Path helpers (models of Go path/filepath and strings functions) -/

/-- Helper for `goExt`: the input is the reversed character list of a path;
the result is the reversed extension (everything from the last dot of the
final path element to the end), or `[]` when the final element has no dot.
Models the backward scan of Go `filepath.Ext`. -/
def extFromRev : List Char → List Char
  | [] => []
  | c :: cs =>
    if c = '/' then []
    else if c = '.' then [c]
    else
      match extFromRev cs with
      | [] => []
      | e => c :: e

/-- Model of Go `filepath.Ext`: the suffix beginning at the final dot in the
final slash-separated element of the path, empty if there is no dot. -/
def goExt (s : String) : String :=
  String.mk (extFromRev s.data.reverse).reverse

/-- Model of Go `strings.TrimSuffix`: removes `suffix` from the end of `s`
when it is actually a suffix, otherwise returns `s` unchanged. -/
def trimSuffix (s suffix : String) : String :=
  if suffix.data.isSuffixOf s.data then
    String.mk (s.data.take (s.data.length - suffix.data.length))
  else s

/-- Split a character list on slashes (model of Go `strings.Split` with
separator `"/"`): always returns at least one (possibly empty) component. -/
def splitSlash : List Char → List (List Char)
  | [] => [[]]
  | c :: cs =>
    let r := splitSlash cs
    if c = '/' then [] :: r
    else
      match r with
      | [] => [[c]]
      | h :: t => (c :: h) :: t

/-- Join components with slashes (model of Go `strings.Join` with `"/"`). -/
def joinSlash : List (List Char) → List Char
  | [] => []
  | [x] => x
  | x :: y :: t => x ++ '/' :: joinSlash (y :: t)

/-- Stack-based processing of path components for `clean`: drops empty and
dot components, and resolves dot-dot components against the stack (kept at
the start when the path is relative, dropped at the root when rooted).
The accumulator is the reversed stack of kept components. -/
def cleanComps (rooted : Bool) : List (List Char) → List (List Char) → List (List Char)
  | [], acc => acc.reverse
  | c :: cs, acc =>
    if c = [] ∨ c = ['.'] then cleanComps rooted cs acc
    else if c = ['.', '.'] then
      match acc with
      | [] => if rooted then cleanComps rooted cs [] else cleanComps rooted cs [['.', '.']]
      | top :: rest =>
        if top = ['.', '.'] then cleanComps rooted cs (c :: top :: rest)
        else cleanComps rooted cs rest
    else cleanComps rooted cs (c :: acc)

/-- Model of Go `path/filepath.Clean` for slash-separated paths: purely
lexical simplification replacing repeated slashes, eliminating `.` and
resolving `..` components, returning `"."` for an empty result. -/
def clean (s : String) : String :=
  if s.data = [] then "." else
  let rooted : Bool := match s.data with | '/' :: _ => true | _ => false
  let comps := cleanComps rooted (splitSlash s.data) []
  let out := joinSlash comps
  if rooted then String.mk ('/' :: out)
  else if out = [] then "." else String.mk out

/-- Model of Go `filepath.Join` on two elements: empty elements are skipped
and the slash-joined remainder is cleaned; two empty elements join to `""`. -/
def goJoin (a b : String) : String :=
  if a.data = [] then (if b.data = [] then "" else clean b)
  else clean (String.mk (a.data ++ '/' :: b.data))

/-! ## The pure filesystem model -/

/-- A file body: either the bytes obtained when the file is read, or the
I/O error produced whenever the program tries to open or read it. -/
abbrev FileContent := Except String Bytes

/-- A filesystem snapshot: an association list from full path to content.
Directories are implicit (so `os.MkdirAll` is a no-op in the model). -/
abbrev FileSys := List (String × FileContent)

/-- The paths present in a filesystem snapshot. -/
def keysOf (fs : FileSys) : List String := fs.map Prod.fst

/-- Whether path `p` lies strictly below directory `dir` (i.e. `dir ++ "/"`
is a prefix of `p`). -/
def underDir (dir p : String) : Bool := (dir.data ++ ['/']).isPrefixOf p.data

/-- Model of `os.RemoveAll dir`: delete every file below `dir`. -/
def removeUnder (dir : String) (fs : FileSys) : FileSys :=
  fs.filter (fun e => ! underDir dir e.1)

/-- The files of the snapshot lying below `dir`, in snapshot order. -/
def filesUnder (dir : String) (fs : FileSys) : FileSys :=
  fs.filter (fun e => underDir dir e.1)

/-- Model of `filepath.Rel dir p` for a path lying below `dir`: drop the
directory prefix and its trailing slash. -/
def relFrom (dir : String) (p : String) : String :=
  String.mk (p.data.drop (dir.data.length + 1))

/-- Model of `filepath.Walk` restricted to regular files: every file below
`sourceDir` paired with its relative path and content.  Directories are
skipped by the walk callback in the source, so they do not appear. -/
def walkFiles (dir : String) (fs : FileSys) : List (String × String × FileContent) :=
  (filesUnder dir fs).map (fun e => (e.1, relFrom dir e.1, e.2))

/-- Store bytes at path `p`, overwriting an existing entry or appending a
new one.  Writing never removes any other path. -/
def writeFile (p : String) (bs : Bytes) (fs : FileSys) : FileSys :=
  if (keysOf fs).contains p then
    fs.map (fun e => if e.1 = p then (p, Except.ok bs) else e)
  else fs ++ [(p, Except.ok bs)]

/-! ## External collaborators -/

/-- The effectful collaborators of `processAssets`, kept abstract:
`digest` models the `crypto/md5` hash of a byte sequence (16 bytes for the
real MD5), `minify` models `tdewolff/minify`'s JavaScript transform, and
`writeErr` is the I/O oracle deciding whether `os.Create`/`os.WriteFile`
at a given destination path fails (and with which error). -/
structure ExternalOps where
  digest : Bytes → Bytes
  minify : Bytes → Except String Bytes
  writeErr : String → Option String

/-! ## main.go, embedded -/

/-- Model of `openAndReadFile`: reading yields the file content or its
I/O error. -/
def openAndReadFile (content : FileContent) : Except String Bytes := content

/-- Model of `calculateFileHash`: open and hash the file, rendering the
digest with `fmt.Sprintf("%x", hash.Sum(nil))`; an open or read error is
returned as-is. -/
def calculateFileHash (ops : ExternalOps) (content : FileContent) : Except String String :=
  match content with
  | Except.error e => Except.error e
  | Except.ok bs => Except.ok (String.mk (hexEncodeList (ops.digest bs)))

/-- Model of `minifySource`: delegate to the external minifier registered
for `text/javascript`. -/
def minifySource (ops : ExternalOps) (sourceCode : Bytes) : Except String Bytes :=
  ops.minify sourceCode

/-- The body of the `filepath.Walk` callback in `processAssets` for one
regular file, up to the point where the file has been written: computes the
content hash, builds the fingerprinted name by inserting `-` plus the first
8 hash characters before the extension, reads the source, minifies it when
the extension is `.js`, and checks the write destination.  Returns the
output path, the fingerprinted name (the manifest value) and the bytes
written, or the error exactly as `processAssets` wraps it.  The caller
(`runWalk`) performs the actual store into the filesystem, which in this
pure model can only fail through the `writeErr` oracle consulted here. -/
def processFile (ops : ExternalOps) (outputDir : String)
    (path relPath : String) (content : FileContent) :
    Except String (String × String × Bytes) :=
  match calculateFileHash ops content with
  | Except.error e => Except.error ("failed to calculate hash for " ++ path ++ ": " ++ e)
  | Except.ok hash =>
    let ext := goExt relPath
    let baseWithoutExt := trimSuffix relPath ext
    let fingerprintedName := baseWithoutExt ++ "-" ++ String.mk (hash.data.take 8) ++ ext
    let outputPath := goJoin outputDir fingerprintedName
    match openAndReadFile content with
    | Except.error e => Except.error ("failed to read source file " ++ path ++ ": " ++ e)
    | Except.ok sourceCode =>
      match (if ext = ".js" then minifySource ops sourceCode else Except.ok sourceCode) with
      | Except.error e => Except.error ("failed to minify source: " ++ e)
      | Except.ok outBytes =>
        match ops.writeErr outputPath with
        | some e => Except.error ("failed to write minified file: " ++ e)
        | none => Except.ok (outputPath, fingerprintedName, outBytes)

/-- The walk loop of `processAssets`: process each file in order, storing
each successful write and appending to the manifest; the first error stops
the loop, leaving earlier writes in place (no rollback). -/
def runWalk (ops : ExternalOps) (outputDir : String) :
    List (String × String × FileContent) → FileSys → List (String × String) →
    FileSys × List (String × String) × Option String
  | [], fs, man => (fs, man, none)
  | (path, relPath, content) :: rest, fs, man =>
    match processFile ops outputDir path relPath content with
    | Except.error e => (fs, man, some e)
    | Except.ok (outputPath, fingerprintedName, outBytes) =>
      runWalk ops outputDir rest (writeFile outputPath outBytes fs)
        (man ++ [(relPath, fingerprintedName)])

/-! JSON rendering of the manifest (model of `encoding/json`, which sorts
map keys and indents). -/

/-- Lexicographic comparison of character lists (byte-wise string order, as
used by `encoding/json` when sorting map keys). -/
def lexLe : List Char → List Char → Bool
  | [], _ => true
  | _ :: _, [] => false
  | a :: as, b :: bs => if a = b then lexLe as bs else decide (a < b)

/-- Insert one manifest entry into a key-sorted list. -/
def insertSorted (x : String × String) : List (String × String) → List (String × String)
  | [] => [x]
  | y :: ys => if lexLe x.1.data y.1.data then x :: y :: ys else y :: insertSorted x ys

/-- Sort manifest entries by key, as `encoding/json` does for maps. -/
def sortByKey (l : List (String × String)) : List (String × String) :=
  l.foldr insertSorted []

/-- Escape a character for a JSON string literal (quotes and backslashes;
the paths handled by the pipeline need nothing further). -/
def escapeChar (c : Char) : List Char :=
  if c = Char.ofNat 34 ∨ c = '\\' then ['\\', c] else [c]

/-- Escape a whole string for a JSON string literal. -/
def jsonEscape : List Char → List Char
  | [] => []
  | c :: cs => escapeChar c ++ jsonEscape cs

/-- Render the sorted manifest entries as the inner JSON object text. -/
def renderPairs : List (String × String) → List Char
  | [] => []
  | [p] => Char.ofNat 34 :: jsonEscape p.1.data ++ Char.ofNat 34 :: ':' :: ' ' ::
      Char.ofNat 34 :: jsonEscape p.2.data ++ [Char.ofNat 34]
  | p :: q :: t => Char.ofNat 34 :: jsonEscape p.1.data ++ Char.ofNat 34 :: ':' :: ' ' ::
      Char.ofNat 34 :: jsonEscape p.2.data ++ Char.ofNat 34 :: ',' :: renderPairs (q :: t)

/-- The manifest file bytes: the `AssetManifest` JSON rendering written by
the `encoding/json` encoder (map keys sorted). -/
def encodeManifest (man : List (String × String)) : Bytes :=
  (Char.ofNat 123 :: Char.ofNat 34 :: ("assets".data) ++ Char.ofNat 34 :: ':' ::
    Char.ofNat 123 :: renderPairs (sortByKey man) ++ [Char.ofNat 125, Char.ofNat 125]).map Char.toNat

/-- Model of `processAssets sourceDir outputDir` from main.go over a
filesystem snapshot.  Returns the resulting filesystem (on failure, the
partial state with every write made so far — there is no rollback) together
with either the manifest entries that were serialized to
`outputDir/manifest.json` or the error, wrapped exactly as the source
wraps it.  Go's `filepath.Walk` reads each directory live when it reaches
it, so a run whose writes land inside the source tree can walk its own
freshly written outputs; the model's walk instead reads the snapshot taken
after the initial `os.RemoveAll(outputDir)`.  The two agree exactly
whenever no written path (output files and `manifest.json`) lies below
`sourceDir` — the theorems about whole runs carry hypotheses confining
them to that regime — and also in the aliased `sourceDir = outputDir`
configuration, where the tree walked is empty either way. -/
def processAssets (ops : ExternalOps) (sourceDir outputDir : String) (fs0 : FileSys) :
    FileSys × Except String (List (String × String)) :=
  let fs1 := removeUnder outputDir fs0
  let manifestPath := goJoin outputDir "manifest.json"
  let walked := walkFiles sourceDir fs1
  match runWalk ops outputDir walked fs1 [] with
  | (fs2, _, some e) => (fs2, Except.error ("failed to process assets: " ++ e))
  | (fs2, man, none) =>
    match ops.writeErr manifestPath with
    | some e => (fs2, Except.error ("failed to create manifest file: " ++ e))
    | none => (writeFile manifestPath (encodeManifest man) fs2, Except.ok man)

/-- The default of the `-source` flag in `main`. -/
def defaultSourceDir : String := "src"

/-- The default of the `-output` flag in `main`. -/
def defaultOutputDir : String := "src"

/-! ## JSON values and a JSON parser (model of `encoding/json` reading) -/

/-- JSON values.  Numbers keep their lexeme: the decoder for the manifest
shape never interprets them numerically, it can only reject them. -/
inductive Json where
  | null
  | bool (b : Bool)
  | num (lexeme : String)
  | str (s : String)
  | arr (elems : List Json)
  | obj (members : List (String × Json))

/-- The double-quote character. -/
def quoteCh : Char := Char.ofNat 34

/-- The opening curly bracket. -/
def lbraceCh : Char := Char.ofNat 123

/-- The closing curly bracket. -/
def rbraceCh : Char := Char.ofNat 125

/-- JSON insignificant whitespace. -/
def isWs (c : Char) : Bool :=
  c = ' ' ∨ c = Char.ofNat 9 ∨ c = Char.ofNat 10 ∨ c = Char.ofNat 13

/-- Drop leading JSON whitespace. -/
def skipWs : List Char → List Char
  | [] => []
  | c :: cs => if isWs c then skipWs cs else c :: cs

/-- ASCII decimal digit test. -/
def isDigitCh (c : Char) : Bool := decide ('0' ≤ c) && decide (c ≤ '9')

/-- ASCII hexadecimal digit test. -/
def isHexCh (c : Char) : Bool :=
  isDigitCh c || (decide ('a' ≤ c) && decide (c ≤ 'f')) || (decide ('A' ≤ c) && decide (c ≤ 'F'))

/-- Value of an ASCII hexadecimal digit. -/
def hexValCh (c : Char) : Nat :=
  if isDigitCh c then c.toNat - 48
  else if decide ('a' ≤ c) && decide (c ≤ 'f') then c.toNat - 87
  else c.toNat - 55

/-- Decode a single-character JSON escape. -/
def escDecode (c : Char) : Option Char :=
  if c = quoteCh then some quoteCh
  else if c = '\\' then some '\\'
  else if c = '/' then some '/'
  else if c = 'b' then some (Char.ofNat 8)
  else if c = 'f' then some (Char.ofNat 12)
  else if c = 'n' then some (Char.ofNat 10)
  else if c = 'r' then some (Char.ofNat 13)
  else if c = 't' then some (Char.ofNat 9)
  else none

/-- Parse the body of a JSON string literal after its opening quote:
returns the decoded characters and the input remaining after the closing
quote.  Raw control characters are rejected, escapes are decoded. -/
def parseStringBody : List Char → Option (List Char × List Char)
  | [] => none
  | c :: cs =>
    if c = quoteCh then some ([], cs)
    else if c = '\\' then
      match cs with
      | 'u' :: a :: b :: c2 :: d :: rest =>
        if isHexCh a && isHexCh b && isHexCh c2 && isHexCh d then
          match parseStringBody rest with
          | some (s, r) =>
            some (Char.ofNat (((hexValCh a * 16 + hexValCh b) * 16 + hexValCh c2) * 16 +
              hexValCh d) :: s, r)
          | none => none
        else none
      | e :: rest =>
        match escDecode e with
        | some ch =>
          match parseStringBody rest with
          | some (s, r) => some (ch :: s, r)
          | none => none
        | none => none
      | [] => none
    else if c.toNat < 32 then none
    else
      match parseStringBody cs with
      | some (s, r) => some (c :: s, r)
      | none => none

/-- Take a maximal run of decimal digits. -/
def takeDigits : List Char → List Char × List Char
  | [] => ([], [])
  | c :: cs =>
    if isDigitCh c then
      let (ds, r) := takeDigits cs
      (c :: ds, r)
    else ([], c :: cs)

/-- Parse the optional exponent part of a JSON number. -/
def parseExpPart (lex : List Char) (cs : List Char) : Option (List Char × List Char) :=
  match cs with
  | e :: t =>
    if e = 'e' ∨ e = 'E' then
      let (sgn, t2) := match t with
        | '+' :: t3 => (['+'], t3)
        | '-' :: t3 => (['-'], t3)
        | _ => ([], t)
      match takeDigits t2 with
      | ([], _) => none
      | (ds, r) => some (lex ++ e :: sgn ++ ds, r)
    else some (lex, cs)
  | [] => some (lex, cs)

/-- Parse the optional fraction part of a JSON number, then its exponent. -/
def parseFracPart (lex : List Char) (cs : List Char) : Option (List Char × List Char) :=
  match cs with
  | '.' :: t =>
    match takeDigits t with
    | ([], _) => none
    | (ds, r) => parseExpPart (lex ++ '.' :: ds) r
  | _ => parseExpPart lex cs

/-- Parse a JSON number lexeme per the JSON grammar. -/
def parseNumber (cs : List Char) : Option (List Char × List Char) :=
  let (neg, cs1) := match cs with
    | '-' :: t => (['-'], t)
    | _ => ([], cs)
  match cs1 with
  | '0' :: t => parseFracPart (neg ++ ['0']) t
  | c :: t =>
    if isDigitCh c then
      let (ds, r) := takeDigits t
      parseFracPart (neg ++ c :: ds) r
    else none
  | [] => none

mutual

/-- Parse one JSON value, skipping leading whitespace; fuelled recursion. -/
def parseValue : Nat → List Char → Option (Json × List Char)
  | 0, _ => none
  | fuel + 1, cs =>
    match skipWs cs with
    | 'n' :: 'u' :: 'l' :: 'l' :: rest => some (Json.null, rest)
    | 't' :: 'r' :: 'u' :: 'e' :: rest => some (Json.bool true, rest)
    | 'f' :: 'a' :: 'l' :: 's' :: 'e' :: rest => some (Json.bool false, rest)
    | c :: cs2 =>
      if c = quoteCh then
        match parseStringBody cs2 with
        | some (s, r) => some (Json.str (String.mk s), r)
        | none => none
      else if c = lbraceCh then parseMembers fuel (skipWs cs2) true []
      else if c = '[' then parseElems fuel (skipWs cs2) true []
      else
        match parseNumber (c :: cs2) with
        | some (lex, r) => some (Json.num (String.mk lex), r)
        | none => none
    | [] => none

/-- Parse array elements after the opening bracket (input ws-skipped). -/
def parseElems : Nat → List Char → Bool → List Json → Option (Json × List Char)
  | 0, _, _, _ => none
  | fuel + 1, cs, first, acc =>
    match cs with
    | ']' :: rest => if first then some (Json.arr [], rest) else none
    | _ =>
      match parseValue fuel cs with
      | some (v, r) =>
        match skipWs r with
        | ',' :: r2 => parseElems fuel (skipWs r2) false (acc ++ [v])
        | ']' :: r2 => some (Json.arr (acc ++ [v]), r2)
        | _ => none
      | none => none

/-- Parse object members after the opening brace (input ws-skipped). -/
def parseMembers : Nat → List Char → Bool → List (String × Json) → Option (Json × List Char)
  | 0, _, _, _ => none
  | fuel + 1, cs, first, acc =>
    match cs with
    | c :: cs2 =>
      if c = rbraceCh ∧ first then some (Json.obj [], cs2)
      else if c = quoteCh then
        match parseStringBody cs2 with
        | some (k, r) =>
          match skipWs r with
          | ':' :: r2 =>
            match parseValue fuel r2 with
            | some (v, r3) =>
              match skipWs r3 with
              | ',' :: r4 => parseMembers fuel (skipWs r4) false (acc ++ [(String.mk k, v)])
              | d :: r4 =>
                if d = rbraceCh then some (Json.obj (acc ++ [(String.mk k, v)]), r4)
                else none
              | [] => none
            | none => none
          | _ => none
        | none => none
      else none
    | [] => none

end

/-- Parse the first JSON value of a text, like one `json.Decoder.Decode`
call: content after the first value is not read and cannot fail. -/
def parseJson (text : String) : Option Json :=
  match parseValue (2 * text.data.length + 2) text.data with
  | some (v, _) => some v
  | none => none

/-! ## assets_loader.go, embedded -/

/-- The manifest record decoded from `manifest.json` (assets as an
association list; the nil and empty Go maps are both the empty list, which
have identical lookup behaviour). -/
structure AssetManifest where
  assets : List (String × String)

/-- The asset loader holding the decoded manifest. -/
structure Loader where
  manifest : AssetManifest

/-- First-match association lookup (Go map lookup over an association list
whose keys are unique by construction). -/
def lookupAssoc {α : Type} : List (String × α) → String → Option α
  | [], _ => none
  | (k, v) :: rest, q => if k = q then some v else lookupAssoc rest q

/-- Insert with overwrite (Go map assignment). -/
def insertAssoc (k v : String) (m : List (String × String)) : List (String × String) :=
  if (m.map Prod.fst).contains k then
    m.map (fun e => if e.1 = k then (k, v) else e)
  else m ++ [(k, v)]

/-- ASCII lower-casing for field-name matching. -/
def toLowerAscii (c : Char) : Char :=
  if decide ('A' ≤ c) && decide (c ≤ 'Z') then Char.ofNat (c.toNat + 32) else c

/-- Model of Go case-insensitive JSON field-name matching (ASCII fold). -/
def equalFold (a b : String) : Bool :=
  a.data.map toLowerAscii = b.data.map toLowerAscii

/-- Decode the members of a JSON object into a Go `map[string]string`,
merging into the existing map `acc`; any non-string member value is a
decode error. -/
def decodeStringPairs : List (String × Json) → List (String × String) →
    Except String (List (String × String))
  | [], acc => Except.ok acc
  | (k, Json.str s) :: rest, acc => decodeStringPairs rest (insertAssoc k s acc)
  | (_, _) :: _, _ =>
    Except.error "json: cannot unmarshal value into Go value of type string"

/-- Decode a JSON value into a Go `map[string]string` field currently
holding `acc`: `null` sets the map to nil, an object merges member by
member, anything else is a decode error. -/
def decodeStringMap (acc : List (String × String)) : Json →
    Except String (List (String × String))
  | Json.null => Except.ok []
  | Json.obj ms => decodeStringPairs ms acc
  | _ => Except.error "json: cannot unmarshal value into Go value of type map[string]string"

/-- Decode the members of the top-level JSON object into `AssetManifest`:
members whose name case-folds to `assets` are decoded into the map field,
all other members are ignored. -/
def decodeMembers : List (String × Json) → List (String × String) →
    Except String AssetManifest
  | [], acc => Except.ok ⟨acc⟩
  | (k, v) :: rest, acc =>
    if equalFold k "assets" then
      match decodeStringMap acc v with
      | Except.error e => Except.error e
      | Except.ok m => decodeMembers rest m
    else decodeMembers rest acc

/-- Decode one JSON value into `AssetManifest`, per `encoding/json`
struct-decoding semantics: `null` leaves the zero value, an object is
decoded field-wise, anything else is a decode error. -/
def decodeAssetManifest : Json → Except String AssetManifest
  | Json.null => Except.ok ⟨[]⟩
  | Json.obj ms => decodeMembers ms []
  | _ => Except.error "json: cannot unmarshal value into Go value of type AssetManifest"

/-- The read-only file source handed to `NewLoader` (`fs.FS`): a map from
path to text content or open/read error. -/
abbrev TextFS := List (String × Except String String)

/-- Model of `NewLoader filesys manifestPath`: open the manifest file,
decode one JSON value from it into `AssetManifest`, and return the loader,
or the first error encountered. -/
def NewLoader (filesys : TextFS) (manifestPath : String) : Except String Loader :=
  match lookupAssoc filesys manifestPath with
  | none => Except.error ("open " ++ manifestPath ++ ": file does not exist")
  | some (Except.error e) => Except.error e
  | some (Except.ok text) =>
    match parseJson text with
    | none => Except.error "json: invalid value"
    | some v =>
      match decodeAssetManifest v with
      | Except.error e => Except.error e
      | Except.ok m => Except.ok ⟨m⟩

/-- Model of `(*Loader).Path`: return the mount prefix `/dist` joined with
the fingerprinted name when the asset is in the manifest, and joined with
the original path otherwise. -/
def Loader.Path (l : Loader) (assetPath : String) : String :=
  match lookupAssoc l.manifest.assets assetPath with
  | some fingerprinted => goJoin "/dist" fingerprinted
  | none => goJoin "/dist" assetPath

/-- Whether a fallible computation failed. -/
def isError {α : Type} : Except String α → Bool
  | Except.error _ => true
  | Except.ok _ => false

/-! ## Derived notions used by the statements -/

/-- The 8-character fingerprint embedded into output names: the first 8
characters of the lowercase hex rendering of the digest of the file's
pre-transform bytes. -/
def fingerprintOf (ops : ExternalOps) (bs : Bytes) : String :=
  String.mk ((hexEncodeList (ops.digest bs)).take 8)

/-- The fingerprinted name produced for a file with relative path
`relPath` and content bytes `bs`: the base without extension, a dash, the
truncated fingerprint, then the extension. -/
def fingerprintedNameOf (ops : ExternalOps) (relPath : String) (bs : Bytes) : String :=
  trimSuffix relPath (goExt relPath) ++ "-" ++ fingerprintOf ops bs ++ goExt relPath

/-- The manifest entry contributed by one walked file (the error case is
never reached on a successful run). -/
def manifestEntryFor (ops : ExternalOps) (relPath : String) (content : FileContent) :
    String × String :=
  (relPath, match content with
    | Except.ok bs => fingerprintedNameOf ops relPath bs
    | Except.error _ => "")

/-! ## Basic lemmas about the model -/

theorem hexEncodeList_length (bs : Bytes) : (hexEncodeList bs).length = 2 * bs.length := by
  induction bs with
  | nil => rfl
  | cons b t ih => simp [hexEncodeList, ih]; omega

theorem isHexCh_hexDigit (n : Nat) (h : n < 16) : isHexCh (hexDigit n) = true := by
  interval_cases n <;> decide

theorem mem_hexEncodeList_isHex (bs : Bytes) (c : Char) (h : c ∈ hexEncodeList bs) :
    isHexCh c = true := by
  induction bs with
  | nil => simp [hexEncodeList] at h
  | cons b t ih =>
    simp only [hexEncodeList, List.mem_cons] at h
    rcases h with h | h | h
    · exact h ▸ isHexCh_hexDigit _ (Nat.mod_lt _ (by omega))
    · exact h ▸ isHexCh_hexDigit _ (Nat.mod_lt _ (by omega))
    · exact ih h

/-- Successful per-file processing fully characterized: the content was
readable, the manifest value is the fingerprinted name built from the hash
of the pre-transform bytes, the output path joins the output directory with
that name, the write succeeded, and the bytes written are the minifier
output for `.js` files and the source bytes for everything else. -/
theorem processFile_ok (ops : ExternalOps) (outputDir path relPath : String)
    (content : FileContent) (op n : String) (o : Bytes)
    (h : processFile ops outputDir path relPath content = Except.ok (op, n, o)) :
    ∃ bs, content = Except.ok bs
      ∧ n = fingerprintedNameOf ops relPath bs
      ∧ op = goJoin outputDir n
      ∧ ops.writeErr op = none
      ∧ ((goExt relPath = ".js" ∧ ops.minify bs = Except.ok o)
         ∨ (goExt relPath ≠ ".js" ∧ o = bs)) := by
  cases content with
  | error e => simp [processFile, calculateFileHash] at h
  | ok bs =>
    refine ⟨bs, rfl, ?_⟩
    simp only [processFile, calculateFileHash, openAndReadFile, minifySource] at h
    by_cases hjs : goExt relPath = ".js"
    · rw [if_pos hjs] at h
      cases hm : ops.minify bs with
      | error e => rw [hm] at h; simp at h
      | ok mo =>
        rw [hm] at h
        cases hw : ops.writeErr (goJoin outputDir
            (trimSuffix relPath (goExt relPath) ++ "-" ++
              String.mk ((hexEncodeList (ops.digest bs)).take 8) ++ goExt relPath)) with
        | some e => rw [hw] at h; simp at h
        | none =>
          rw [hw] at h
          simp only [Except.ok.injEq, Prod.mk.injEq] at h
          obtain ⟨h1, h2, h3⟩ := h
          subst h2; subst h1; subst h3
          exact ⟨rfl, rfl, hw, Or.inl ⟨hjs, rfl⟩⟩
    · rw [if_neg hjs] at h
      cases hw : ops.writeErr (goJoin outputDir
          (trimSuffix relPath (goExt relPath) ++ "-" ++
            String.mk ((hexEncodeList (ops.digest bs)).take 8) ++ goExt relPath)) with
      | some e => rw [hw] at h; simp at h
      | none =>
        rw [hw] at h
        simp only [Except.ok.injEq, Prod.mk.injEq] at h
        obtain ⟨h1, h2, h3⟩ := h
        subst h2; subst h1; subst h3
        exact ⟨rfl, rfl, hw, Or.inr ⟨hjs, rfl⟩⟩

/-- On a successful walk, the final manifest is the initial one followed by
one entry per walked file, in walk order. -/
theorem runWalk_ok_man (ops : ExternalOps) (outputDir : String)
    (l : List (String × String × FileContent)) (fs fs2 : FileSys)
    (man0 man2 : List (String × String))
    (h : runWalk ops outputDir l fs man0 = (fs2, man2, none)) :
    man2 = man0 ++ l.map (fun t => manifestEntryFor ops t.2.1 t.2.2) := by
  induction l generalizing fs man0 with
  | nil =>
    simp only [runWalk, Prod.mk.injEq] at h
    simp [← h.2.1]
  | cons t rest ih =>
    obtain ⟨path, relPath, content⟩ := t
    simp only [runWalk] at h
    cases hp : processFile ops outputDir path relPath content with
    | error e => rw [hp] at h; simp at h
    | ok r =>
      obtain ⟨op, n, o⟩ := r
      rw [hp] at h
      have := ih _ _ h
      obtain ⟨bs, hbs, hn, _⟩ := processFile_ok ops outputDir path relPath content op n o hp
      subst hbs
      simp only [this, manifestEntryFor, hn, List.map_cons, List.append_assoc,
        List.singleton_append]

/-- Replacing the entry at a path keeps the key list unchanged. -/
theorem keysOf_map_write (p : String) (bs : Bytes) (fs : FileSys) :
    keysOf (fs.map (fun e => if e.1 = p then (p, Except.ok bs) else e)) = keysOf fs := by
  induction fs with
  | nil => rfl
  | cons a t ih =>
    by_cases hp : a.1 = p
    · simp only [keysOf, List.map_cons] at ih ⊢
      rw [if_pos hp]
      simp [hp, ih]
    · simp only [keysOf, List.map_cons] at ih ⊢
      rw [if_neg hp]
      simp [ih]

/-- The key list after a write: unchanged for an overwrite, extended by the
new path otherwise. -/
theorem keysOf_writeFile (p : String) (bs : Bytes) (fs : FileSys) :
    keysOf (writeFile p bs fs) =
      if (keysOf fs).contains p then keysOf fs else keysOf fs ++ [p] := by
  unfold writeFile
  by_cases hc : (keysOf fs).contains p
  · rw [if_pos hc, if_pos hc, keysOf_map_write]
  · rw [if_neg hc, if_neg hc]
    simp [keysOf]

/-- Writing keeps every existing path. -/
theorem writeFile_keys_mono (p : String) (bs : Bytes) (fs : FileSys) (k : String)
    (h : k ∈ keysOf fs) : k ∈ keysOf (writeFile p bs fs) := by
  rw [keysOf_writeFile]
  by_cases hc : (keysOf fs).contains p
  · rw [if_pos hc]; exact h
  · rw [if_neg hc]; exact List.mem_append_left _ h

/-- The written path is present after the write. -/
theorem writeFile_mem_self (p : String) (bs : Bytes) (fs : FileSys) :
    p ∈ keysOf (writeFile p bs fs) := by
  rw [keysOf_writeFile]
  by_cases hc : (keysOf fs).contains p
  · rw [if_pos hc]; exact List.elem_iff.mp hc
  · rw [if_neg hc]; exact List.mem_append_right _ (List.mem_singleton.mpr rfl)

/-- Any path present after a write was the written path or already there. -/
theorem writeFile_keys_subset (p : String) (bs : Bytes) (fs : FileSys) (k : String)
    (h : k ∈ keysOf (writeFile p bs fs)) : k = p ∨ k ∈ keysOf fs := by
  rw [keysOf_writeFile] at h
  by_cases hc : (keysOf fs).contains p
  · rw [if_pos hc] at h; exact Or.inr h
  · rw [if_neg hc] at h
    rcases List.mem_append.mp h with h | h
    · exact Or.inr h
    · exact Or.inl (List.mem_singleton.mp h)

/-- Overwriting an entry at a path rejected by `q` leaves the `q`-filtered
view of the filesystem unchanged. -/
theorem filter_map_write (p : String) (bs : Bytes) (q : String → Bool) (hq : q p = false)
    (fs : FileSys) :
    (fs.map (fun e => if e.1 = p then (p, Except.ok bs) else e)).filter (fun e => q e.1) =
      fs.filter (fun e => q e.1) := by
  induction fs with
  | nil => rfl
  | cons a t ih =>
    by_cases hp : a.1 = p
    · simp only [List.map_cons, if_pos hp, List.filter_cons]
      rw [show q (p, Except.ok bs).1 = false from hq, show q a.1 = false from hp ▸ hq]
      simpa using ih
    · simp only [List.map_cons, if_neg hp, List.filter_cons]
      cases hqa : q a.1 <;> simp [ih, hqa]

/-- Writing at a path rejected by `q` leaves the `q`-filtered view of the
filesystem unchanged. -/
theorem writeFile_filter_eq (p : String) (bs : Bytes) (q : String → Bool) (hq : q p = false)
    (fs : FileSys) :
    (writeFile p bs fs).filter (fun e => q e.1) = fs.filter (fun e => q e.1) := by
  unfold writeFile
  by_cases hc : (keysOf fs).contains p
  · rw [if_pos hc, filter_map_write p bs q hq]
  · rw [if_neg hc, List.filter_append]
    simp [List.filter_cons, hq]

/-- Keys present before the walk survive it, and every manifest entry added
by the walk has its output file present afterwards. -/
theorem runWalk_keys (ops : ExternalOps) (outputDir : String)
    (l : List (String × String × FileContent)) (fs fs2 : FileSys)
    (man0 man2 : List (String × String))
    (h : runWalk ops outputDir l fs man0 = (fs2, man2, none)) :
    (∀ k, k ∈ keysOf fs → k ∈ keysOf fs2)
    ∧ (∀ p, p ∈ man2 → p ∈ man0 ∨ goJoin outputDir p.2 ∈ keysOf fs2) := by
  induction l generalizing fs man0 with
  | nil =>
    simp only [runWalk, Prod.mk.injEq] at h
    obtain ⟨h1, h2, _⟩ := h
    subst h1; subst h2
    exact ⟨fun k hk => hk, fun p hp => Or.inl hp⟩
  | cons t rest ih =>
    obtain ⟨path, relPath, content⟩ := t
    simp only [runWalk] at h
    cases hp : processFile ops outputDir path relPath content with
    | error e => rw [hp] at h; simp at h
    | ok r =>
      obtain ⟨op, n, o⟩ := r
      rw [hp] at h
      obtain ⟨ihmono, ihman⟩ := ih _ _ h
      obtain ⟨bs, hbs, hn, hop, _⟩ := processFile_ok ops outputDir path relPath content op n o hp
      refine ⟨fun k hk => ihmono k (writeFile_keys_mono _ _ _ _ hk), fun p hpm => ?_⟩
      rcases ihman p hpm with hin | hout
      · rcases List.mem_append.mp hin with hin0 | hin1
        · exact Or.inl hin0
        · rcases List.mem_singleton.mp hin1 with rfl
          exact Or.inr (hop ▸ ihmono _ (writeFile_mem_self _ _ _))
      · exact Or.inr hout

/-- If every path written during a successful walk is rejected by `q`, the
`q`-filtered view of the filesystem is unchanged by the walk. -/
theorem runWalk_filter (ops : ExternalOps) (outputDir : String) (q : String → Bool)
    (l : List (String × String × FileContent)) (fs fs2 : FileSys)
    (man0 man2 : List (String × String))
    (h : runWalk ops outputDir l fs man0 = (fs2, man2, none))
    (hq : ∀ p ∈ man2, q (goJoin outputDir p.2) = false) :
    fs2.filter (fun e => q e.1) = fs.filter (fun e => q e.1) := by
  induction l generalizing fs man0 with
  | nil =>
    simp only [runWalk, Prod.mk.injEq] at h
    rw [← h.1]
  | cons t rest ih =>
    obtain ⟨path, relPath, content⟩ := t
    simp only [runWalk] at h
    cases hp : processFile ops outputDir path relPath content with
    | error e => rw [hp] at h; simp at h
    | ok r =>
      obtain ⟨op, n, o⟩ := r
      rw [hp] at h
      have hman := runWalk_ok_man ops outputDir rest _ _ _ _ h
      obtain ⟨bs, hbs, hn, hop, _⟩ := processFile_ok ops outputDir path relPath content op n o hp
      have hmem : (relPath, n) ∈ man2 := by
        rw [hman]
        refine List.mem_append_left _ (List.mem_append_right _ ?_)
        subst hbs
        simp [manifestEntryFor, hn]
      have hqop : q op = false := by rw [hop]; exact hq _ hmem
      rw [ih _ _ h, writeFile_filter_eq _ _ _ hqop]

/-- The manifest and the error outcome of the walk do not depend on the
filesystem being written to. -/
theorem runWalk_snd_indep (ops : ExternalOps) (outputDir : String)
    (l : List (String × String × FileContent)) (fsA fsB : FileSys)
    (man0 : List (String × String)) :
    (runWalk ops outputDir l fsA man0).2 = (runWalk ops outputDir l fsB man0).2 := by
  induction l generalizing fsA fsB man0 with
  | nil => rfl
  | cons t rest ih =>
    obtain ⟨path, relPath, content⟩ := t
    simp only [runWalk]
    cases hp : processFile ops outputDir path relPath content with
    | error e => rfl
    | ok r =>
      obtain ⟨op, n, o⟩ := r
      exact ih _ _ _

/-- The walk stops at the first failing file: the state is the one after
the preceding files only, and the error is the failing file's error. -/
theorem runWalk_prefix_error (ops : ExternalOps) (outputDir : String)
    (pre : List (String × String × FileContent)) (t : String × String × FileContent)
    (post : List (String × String × FileContent)) (fs : FileSys)
    (man0 : List (String × String)) (e : String)
    (hpre : ∀ u ∈ pre, isError (processFile ops outputDir u.1 u.2.1 u.2.2) = false)
    (hfail : processFile ops outputDir t.1 t.2.1 t.2.2 = Except.error e) :
    runWalk ops outputDir (pre ++ t :: post) fs man0 =
      ((runWalk ops outputDir pre fs man0).1,
        (runWalk ops outputDir pre fs man0).2.1, some e) := by
  induction pre generalizing fs man0 with
  | nil =>
    obtain ⟨path, relPath, content⟩ := t
    simp only [List.nil_append, runWalk]
    rw [show processFile ops outputDir path relPath content = Except.error e from hfail]
  | cons u pre ih =>
    obtain ⟨path, relPath, content⟩ := u
    have hu := hpre _ (List.mem_cons_self _ _)
    simp only [List.cons_append, runWalk]
    cases hp : processFile ops outputDir path relPath content with
    | error e2 => rw [hp] at hu; simp [isError] at hu
    | ok r =>
      obtain ⟨op, n, o⟩ := r
      exact ih _ _ (fun v hv => hpre v (List.mem_cons_of_mem _ hv))

/-- Below the deleted output directory no file remains, so a walk of the
output directory itself finds nothing. -/
theorem walkFiles_removeUnder_self (dir : String) (fs : FileSys) :
    walkFiles dir (removeUnder dir fs) = [] := by
  unfold walkFiles filesUnder removeUnder
  rw [List.filter_filter]
  have : fs.filter (fun e => underDir dir e.1 && !underDir dir e.1) = [] := by
    rw [List.filter_eq_nil_iff]
    intro a _
    cases underDir dir a.1 <;> simp
  rw [this]
  rfl

/-- When no source file sits below the output directory, deleting the
output directory does not change the files below the source directory. -/
theorem filesUnder_removeUnder (sourceDir outputDir : String) (fs : FileSys)
    (hdisj : ∀ e ∈ fs, underDir sourceDir e.1 = true → underDir outputDir e.1 = false) :
    filesUnder sourceDir (removeUnder outputDir fs) = filesUnder sourceDir fs := by
  unfold filesUnder removeUnder
  rw [List.filter_filter]
  apply List.filter_congr
  intro a ha
  cases hs : underDir sourceDir a.1
  · simp
  · simp [hdisj a ha hs]

/-- The walk input of a run, as one filter over the initial snapshot. -/
theorem walkFiles_removeUnder (src out : String) (fs : FileSys) :
    walkFiles src (removeUnder out fs) =
      (fs.filter (fun e => underDir src e.1 && !underDir out e.1)).map
        (fun e => (e.1, relFrom src e.1, e.2)) := by
  unfold walkFiles filesUnder removeUnder
  rw [List.filter_filter]

/-- On a successful walk every file was processed successfully. -/
theorem runWalk_ok_all (ops : ExternalOps) (outputDir : String)
    (l : List (String × String × FileContent)) (fs fs2 : FileSys)
    (man0 man2 : List (String × String))
    (h : runWalk ops outputDir l fs man0 = (fs2, man2, none)) :
    ∀ t ∈ l, ∃ r, processFile ops outputDir t.1 t.2.1 t.2.2 = Except.ok r := by
  induction l generalizing fs man0 with
  | nil => intro t ht; simp at ht
  | cons u rest ih =>
    obtain ⟨path, relPath, content⟩ := u
    simp only [runWalk] at h
    cases hp : processFile ops outputDir path relPath content with
    | error e => rw [hp] at h; simp at h
    | ok r =>
      rw [hp] at h
      intro t ht
      rcases List.mem_cons.mp ht with rfl | hmem
      · exact ⟨r, hp⟩
      · exact ih _ _ h t hmem

/-- Every path present after a successful walk was present before it or is
the output path of one of the manifest's entries. -/
theorem runWalk_keys_subset (ops : ExternalOps) (outputDir : String)
    (l : List (String × String × FileContent)) (fs fs2 : FileSys)
    (man0 man2 : List (String × String))
    (h : runWalk ops outputDir l fs man0 = (fs2, man2, none)) :
    ∀ k ∈ keysOf fs2, k ∈ keysOf fs ∨ ∃ p ∈ man2, k = goJoin outputDir p.2 := by
  induction l generalizing fs man0 with
  | nil =>
    simp only [runWalk, Prod.mk.injEq] at h
    intro k hk
    exact Or.inl (h.1 ▸ hk)
  | cons u rest ih =>
    obtain ⟨path, relPath, content⟩ := u
    simp only [runWalk] at h
    cases hp : processFile ops outputDir path relPath content with
    | error e => rw [hp] at h; simp at h
    | ok r =>
      obtain ⟨op, n, o⟩ := r
      rw [hp] at h
      obtain ⟨bs, hbs, hn, hop, _⟩ := processFile_ok ops outputDir path relPath content op n o hp
      have hman := runWalk_ok_man ops outputDir rest _ _ _ _ h
      have hmem : (relPath, n) ∈ man2 := by
        rw [hman]
        refine List.mem_append_left _ (List.mem_append_right _ ?_)
        subst hbs
        simp [manifestEntryFor, hn]
      intro k hk
      rcases ih _ _ h k hk with hkw | hout
      · rcases writeFile_keys_subset op o fs k hkw with rfl | hold
        · exact Or.inr ⟨(relPath, n), hmem, hop⟩
        · exact Or.inl hold
      · exact Or.inr hout

/-- A successful `processAssets` run decomposed into its walk outcome and
its manifest write. -/
theorem processAssets_ok_elim (ops : ExternalOps) (sourceDir outputDir : String)
    (fs fsF : FileSys) (man : List (String × String))
    (h : processAssets ops sourceDir outputDir fs = (fsF, Except.ok man)) :
    ∃ fs2, runWalk ops outputDir (walkFiles sourceDir (removeUnder outputDir fs))
        (removeUnder outputDir fs) [] = (fs2, man, none)
      ∧ ops.writeErr (goJoin outputDir "manifest.json") = none
      ∧ fsF = writeFile (goJoin outputDir "manifest.json") (encodeManifest man) fs2 := by
  simp only [processAssets] at h
  rcases hrw : runWalk ops outputDir (walkFiles sourceDir (removeUnder outputDir fs))
      (removeUnder outputDir fs) [] with ⟨fs2, man2, err⟩
  rw [hrw] at h
  cases err with
  | some e => simp at h
  | none =>
    cases hwm : ops.writeErr (goJoin outputDir "manifest.json") with
    | some e => rw [hwm] at h; simp at h
    | none =>
      rw [hwm] at h
      simp only [Prod.mk.injEq, Except.ok.injEq] at h
      obtain ⟨hfs, hman⟩ := h
      subst hman
      exact ⟨fs2, rfl, rfl, hfs.symm⟩

/-- The manifest-or-error outcome of a run depends only on the walk input. -/
theorem processAssets_snd_congr (ops : ExternalOps) (sourceDir outputDir : String)
    (fsA fsB : FileSys)
    (h : walkFiles sourceDir (removeUnder outputDir fsA) =
      walkFiles sourceDir (removeUnder outputDir fsB)) :
    (processAssets ops sourceDir outputDir fsA).2 =
      (processAssets ops sourceDir outputDir fsB).2 := by
  simp only [processAssets]
  rw [h]
  have hsnd := runWalk_snd_indep ops outputDir
    (walkFiles sourceDir (removeUnder outputDir fsB))
    (removeUnder outputDir fsA) (removeUnder outputDir fsB) []
  rcases h1 : runWalk ops outputDir (walkFiles sourceDir (removeUnder outputDir fsB))
      (removeUnder outputDir fsA) [] with ⟨a1, m1, e1⟩
  rcases h2 : runWalk ops outputDir (walkFiles sourceDir (removeUnder outputDir fsB))
      (removeUnder outputDir fsB) [] with ⟨a2, m2, e2⟩
  rw [h1, h2] at hsnd
  simp only [Prod.mk.injEq] at hsnd
  obtain ⟨hm, he⟩ := hsnd
  subst hm; subst he
  cases e1 with
  | some e => rfl
  | none => cases ops.writeErr (goJoin outputDir "manifest.json") <;> rfl

/-! ## Concrete instantiations used by the witnesses -/

/-- A sample set of external collaborators: a 16-byte digest (like MD5), a
minifier that keeps the first byte, and writes that always succeed. -/
def sampleOps : ExternalOps :=
  { digest := fun bs => (bs.length % 256) :: List.replicate 15 0
    minify := fun bs => Except.ok (bs.take 1)
    writeErr := fun _ => none }

/-- External collaborators whose minifier rejects the input `[2]`. -/
def failingMinifyOps : ExternalOps :=
  { digest := fun bs => (bs.length % 256) :: List.replicate 15 0
    minify := fun bs => if bs = [2] then Except.error "unexpected token" else Except.ok (bs.take 1)
    writeErr := fun _ => none }

/-! ## The claims -/

/-- C2: for every constructed Loader and every asset path, `Path` never
fails: when the path is a manifest key it returns the `/dist` mount prefix
joined with the mapped fingerprinted name, and when it is not a key it
returns the prefix joined with the original path. -/
theorem c2_path_resolution (l : Loader) (assetPath : String) :
    (∀ fingerprinted, lookupAssoc l.manifest.assets assetPath = some fingerprinted →
      l.Path assetPath = goJoin "/dist" fingerprinted)
    ∧ (lookupAssoc l.manifest.assets assetPath = none →
      l.Path assetPath = goJoin "/dist" assetPath) := by
  constructor
  · intro fingerprinted h
    unfold Loader.Path
    rw [h]
  · intro h
    unfold Loader.Path
    rw [h]

/-- Witness for C2, on the spec's own example manifest. -/
theorem c2_path_resolution_witness :
    lookupAssoc [("app.js", "app-deadbeef.js")] "app.js" = some "app-deadbeef.js"
    ∧ Loader.Path ⟨⟨[("app.js", "app-deadbeef.js")]⟩⟩ "app.js" = "/dist/app-deadbeef.js"
    ∧ lookupAssoc [("app.js", "app-deadbeef.js")] "missing.js" = (none : Option String)
    ∧ Loader.Path ⟨⟨[("app.js", "app-deadbeef.js")]⟩⟩ "missing.js" = "/dist/missing.js" := by
  refine ⟨rfl, ?_, rfl, ?_⟩
  · rw [(c2_path_resolution ⟨⟨[("app.js", "app-deadbeef.js")]⟩⟩ "app.js").1
      "app-deadbeef.js" rfl]
    decide
  · rw [(c2_path_resolution ⟨⟨[("app.js", "app-deadbeef.js")]⟩⟩ "missing.js").2 rfl]
    decide

/-- C9: when the output directory equals the source directory — the default
configuration, both flags defaulting to `src` — the run first deletes the
whole tree, the walk then finds nothing, the run succeeds, the sources are
destroyed, and the written manifest has an empty assets map. -/
theorem c9_same_dir_destroys_sources (ops : ExternalOps) (dir : String) (fs : FileSys)
    (hw : ops.writeErr (goJoin dir "manifest.json") = none) :
    defaultSourceDir = "src" ∧ defaultOutputDir = "src"
    ∧ processAssets ops dir dir fs =
      (writeFile (goJoin dir "manifest.json") (encodeManifest [])
        (removeUnder dir fs), Except.ok []) := by
  refine ⟨rfl, rfl, ?_⟩
  simp only [processAssets, walkFiles_removeUnder_self, runWalk, hw]

/-- Witness for C9 at a concrete tree with one source file. -/
theorem c9_same_dir_witness :
    sampleOps.writeErr (goJoin "src" "manifest.json") = none
    ∧ processAssets sampleOps "src" "src" [("src/app.js", Except.ok [1, 2, 3])] =
      (writeFile (goJoin "src" "manifest.json") (encodeManifest [])
        (removeUnder "src" [("src/app.js", Except.ok [1, 2, 3])]), Except.ok []) :=
  ⟨rfl, (c9_same_dir_destroys_sources sampleOps "src"
    [("src/app.js", Except.ok [1, 2, 3])] rfl).2.2⟩

/-- C10: a successful hash is the 32-character lowercase hex encoding of
the 16-byte digest, so the 8-character truncation performed by
`processAssets` is always in bounds; the error branch is taken only when an
error is returned, before any slicing occurs. -/
theorem c10_hash_width (ops : ExternalOps) (bs : Bytes) (s : String)
    (hdigest : (ops.digest bs).length = 16)
    (hhash : calculateFileHash ops (Except.ok bs) = Except.ok s) :
    s.length = 32 ∧ (∀ c ∈ s.data, isHexCh c = true) ∧ 8 ≤ s.length
    ∧ (∀ err : String, calculateFileHash ops (Except.error err) = Except.error err) := by
  have hs : s = String.mk (hexEncodeList (ops.digest bs)) := by
    simp only [calculateFileHash, Except.ok.injEq] at hhash
    exact hhash.symm
  subst hs
  refine ⟨?_, ?_, ?_, fun err => rfl⟩
  · rw [String.length_mk, hexEncodeList_length, hdigest]
  · intro c hc
    exact mem_hexEncodeList_isHex _ c hc
  · rw [String.length_mk, hexEncodeList_length, hdigest]
    omega

/-- Witness for C10 at the empty byte sequence. -/
theorem c10_hash_width_witness :
    (sampleOps.digest []).length = 16
    ∧ (String.length "00000000000000000000000000000000" = 32
      ∧ (∀ c ∈ (String.data "00000000000000000000000000000000"), isHexCh c = true)
      ∧ 8 ≤ String.length "00000000000000000000000000000000"
      ∧ (∀ err : String, calculateFileHash sampleOps (Except.error err) = Except.error err)) :=
  ⟨by decide, c10_hash_width sampleOps [] _ (by decide) rfl⟩

/-- C5: the content written for a processed file depends on the extension
only: a `.js` file is passed through the Minifier, any other extension is
written byte-for-byte; and whenever the external Minifier's output on the
source bytes is strictly smaller and free of the comment text — its
contract for valid JavaScript with comments and extraneous whitespace —
the written bytes are strictly smaller and free of the comment text. -/
theorem c5_transform_policy (ops : ExternalOps) (outputDir path relPath : String)
    (bs : Bytes) (op n : String) (o : Bytes)
    (h : processFile ops outputDir path relPath (Except.ok bs) = Except.ok (op, n, o)) :
    (goExt relPath = ".js" → minifySource ops bs = Except.ok o)
    ∧ (goExt relPath ≠ ".js" → o = bs)
    ∧ (∀ comment mo : Bytes, goExt relPath = ".js" →
        minifySource ops bs = Except.ok mo →
        mo.length < bs.length → ¬ comment <:+: mo →
        o.length < bs.length ∧ ¬ comment <:+: o) := by
  obtain ⟨bs2, hbs2, hn, hop, hw, hdisp⟩ :=
    processFile_ok ops outputDir path relPath (Except.ok bs) op n o h
  have hbs : bs2 = bs := by
    injection hbs2 with h2
    exact h2.symm
  subst hbs
  rcases hdisp with ⟨hjs, hmin⟩ | ⟨hjs, ho⟩
  · refine ⟨fun _ => hmin, fun hne => absurd hjs hne, ?_⟩
    intro comment mo _ hmo hlen hinf
    have : mo = o := by
      simp only [minifySource] at hmo
      rw [hmin] at hmo
      injection hmo with h3
      exact h3.symm
    subst this
    exact ⟨hlen, hinf⟩
  · refine ⟨fun hjs2 => absurd hjs2 hjs, fun _ => ho, ?_⟩
    intro comment mo hjs2 _ _ _
    exact absurd hjs2 hjs

/-- Witness for C5: a `.js` file goes through the minifier (`[9, 8, 7]`
shrinks to `[9]`, losing the `[7]` "comment"), a `.css` file is copied
byte-for-byte. -/
theorem c5_transform_policy_witness :
    minifySource sampleOps [9, 8, 7] = Except.ok [9]
    ∧ ([9] : Bytes).length < ([9, 8, 7] : Bytes).length
    ∧ ¬ ([7] : Bytes) <:+: [9]
    ∧ ∀ o : Bytes, processFile sampleOps "outd" "srcd/style.css" "style.css"
        (Except.ok [4, 5]) = Except.ok ("outd/style-00000000.css", "style-00000000.css", o) →
        o = [4, 5] := by
  have hjs : processFile sampleOps "outd" "srcd/app.js" "app.js" (Except.ok [9, 8, 7]) =
      Except.ok ("outd/app-03000000.js", "app-03000000.js", [9]) := rfl
  have h5 := c5_transform_policy sampleOps "outd" "srcd/app.js" "app.js" [9, 8, 7] _ _ _ hjs
  refine ⟨h5.1 rfl, ?_⟩
  have h9 := h5.2.2 [7] [9] rfl rfl (by decide) (by decide)
  refine ⟨h9.1, h9.2, ?_⟩
  intro o hcss
  exact (c5_transform_policy sampleOps "outd" "srcd/style.css" "style.css" [4, 5] _ _ _
    hcss).2.1 (by decide)

/-- C6: the fingerprint embedded in a file's output name is a function of
the file's exact pre-transform byte content only — two files processed with
the same content carry the same fingerprint whatever their paths, and for a
`.js` file the fingerprint hashes the original bytes, not the minified
output. -/
theorem c6_fingerprint_of_content (ops : ExternalOps) (outputDir : String)
    (path1 relPath1 path2 relPath2 : String) (bs : Bytes)
    (op1 n1 : String) (o1 : Bytes) (op2 n2 : String) (o2 : Bytes)
    (h1 : processFile ops outputDir path1 relPath1 (Except.ok bs) = Except.ok (op1, n1, o1))
    (h2 : processFile ops outputDir path2 relPath2 (Except.ok bs) = Except.ok (op2, n2, o2)) :
    n1 = trimSuffix relPath1 (goExt relPath1) ++ "-" ++ fingerprintOf ops bs ++ goExt relPath1
    ∧ n2 = trimSuffix relPath2 (goExt relPath2) ++ "-" ++ fingerprintOf ops bs ++ goExt relPath2
    ∧ fingerprintOf ops bs = String.mk ((hexEncodeList (ops.digest bs)).take 8)
    ∧ (goExt relPath1 = ".js" → minifySource ops bs = Except.ok o1) := by
  obtain ⟨c1, hc1, hn1, _, _, hd1⟩ :=
    processFile_ok ops outputDir path1 relPath1 (Except.ok bs) op1 n1 o1 h1
  obtain ⟨c2, hc2, hn2, _, _, _⟩ :=
    processFile_ok ops outputDir path2 relPath2 (Except.ok bs) op2 n2 o2 h2
  have e1 : c1 = bs := by injection hc1 with h0; exact h0.symm
  have e2 : c2 = bs := by injection hc2 with h0; exact h0.symm
  subst e1; subst e2
  refine ⟨hn1, hn2, rfl, ?_⟩
  intro hjs
  rcases hd1 with ⟨_, hmin⟩ | ⟨hne, _⟩
  · exact hmin
  · exact absurd hjs hne

/-- Witness for C6: the same bytes at two different paths and extensions
produce names embedding the identical fingerprint. -/
theorem c6_fingerprint_witness :
    fingerprintOf sampleOps [9, 8, 7] = "03000000"
    ∧ "app-03000000.js" =
      trimSuffix "app.js" (goExt "app.js") ++ "-" ++ fingerprintOf sampleOps [9, 8, 7]
        ++ goExt "app.js"
    ∧ "sub/data-03000000.txt" =
      trimSuffix "sub/data.txt" (goExt "sub/data.txt") ++ "-"
        ++ fingerprintOf sampleOps [9, 8, 7] ++ goExt "sub/data.txt" := by
  have hjs : processFile sampleOps "outd" "srcd/app.js" "app.js" (Except.ok [9, 8, 7]) =
      Except.ok ("outd/app-03000000.js", "app-03000000.js", [9]) := rfl
  have htxt : processFile sampleOps "outd" "other/sub/data.txt" "sub/data.txt"
      (Except.ok [9, 8, 7]) =
      Except.ok ("outd/sub/data-03000000.txt", "sub/data-03000000.txt", [9, 8, 7]) := rfl
  have h6 := c6_fingerprint_of_content sampleOps "outd" "srcd/app.js" "app.js"
    "other/sub/data.txt" "sub/data.txt" [9, 8, 7] _ _ _ _ _ _ hjs htxt
  exact ⟨rfl, h6.1, h6.2.1⟩

/-- C7: every manifest entry's value is the relative path split at its
extension and reassembled with a dash and the hex fingerprint truncated to
8 characters inserted before the extension; the truncation width is the
same for every file of the run. -/
theorem c7_uniform_truncation (ops : ExternalOps) (sourceDir outputDir : String)
    (fs fsF : FileSys) (man : List (String × String))
    (hdigest : ∀ bs, (ops.digest bs).length = 16)
    (hrun : processAssets ops sourceDir outputDir fs = (fsF, Except.ok man)) :
    ∀ p ∈ man, ∃ h8 : String,
      p.2 = trimSuffix p.1 (goExt p.1) ++ "-" ++ h8 ++ goExt p.1 ∧ h8.length = 8 := by
  obtain ⟨fs2, hrw, _, _⟩ := processAssets_ok_elim ops sourceDir outputDir fs fsF man hrun
  have hman := runWalk_ok_man ops outputDir _ _ _ _ _ hrw
  have hall := runWalk_ok_all ops outputDir _ _ _ _ _ hrw
  intro p hp
  rw [hman, List.nil_append] at hp
  obtain ⟨t, ht, hpt⟩ := List.mem_map.mp hp
  obtain ⟨r, hr⟩ := hall t ht
  obtain ⟨op, n, o⟩ := r
  obtain ⟨bs, hbs, hn, _, _, _⟩ := processFile_ok ops outputDir t.1 t.2.1 t.2.2 op n o hr
  refine ⟨fingerprintOf ops bs, ?_, ?_⟩
  · rw [← hpt]
    simp only [manifestEntryFor, hbs, fingerprintedNameOf]
  · rw [show fingerprintOf ops bs = String.mk ((hexEncodeList (ops.digest bs)).take 8) from rfl,
      String.length_mk, List.length_take, hexEncodeList_length, hdigest]
    omega

/-- Witness for C7 at a concrete two-file run. -/
theorem c7_uniform_truncation_witness :
    (∀ bs : Bytes, (sampleOps.digest bs).length = 16)
    ∧ (∀ p ∈ [("app.js", "app-03000000.js"), ("style.css", "style-02000000.css")],
        ∃ h8 : String, (Prod.snd p) =
          trimSuffix p.1 (goExt p.1) ++ "-" ++ h8 ++ goExt p.1 ∧ h8.length = 8) := by
  have hlen : ∀ bs : Bytes, (sampleOps.digest bs).length = 16 := by
    intro bs
    simp [sampleOps]
  refine ⟨hlen, ?_⟩
  exact c7_uniform_truncation sampleOps "srcd" "outd"
    [("srcd/app.js", Except.ok [9, 8, 7]), ("srcd/style.css", Except.ok [4, 5])] _ _ hlen rfl

/-- C8: the first error of any modelled kind — an unreadable source file,
a minifier rejection, a write failure — aborts the run immediately: the
error is returned wrapped with identifying context and the resulting state
contains exactly the writes of the files preceding the failing one, with no
rollback and no later file processed. -/
theorem c8_fail_fast (ops : ExternalOps) (sourceDir outputDir : String) (fs : FileSys)
    (pre : List (String × String × FileContent)) (t : String × String × FileContent)
    (post : List (String × String × FileContent)) (e : String)
    (hwalk : walkFiles sourceDir (removeUnder outputDir fs) = pre ++ t :: post)
    (hpre : ∀ u ∈ pre, isError (processFile ops outputDir u.1 u.2.1 u.2.2) = false)
    (hfail : processFile ops outputDir t.1 t.2.1 t.2.2 = Except.error e) :
    processAssets ops sourceDir outputDir fs =
      ((runWalk ops outputDir pre (removeUnder outputDir fs) []).1,
        Except.error ("failed to process assets: " ++ e)) := by
  simp only [processAssets]
  rw [hwalk, runWalk_prefix_error ops outputDir pre t post _ [] e hpre hfail]

/-- Witness for C8: the second of three files fails to minify; the first
file's write is kept, the third file is never processed, and the wrapped
error is returned. -/
theorem c8_fail_fast_witness :
    processFile failingMinifyOps "outd" "srcd/b.js" "b.js" (Except.ok [2]) =
      Except.error "failed to minify source: unexpected token"
    ∧ processAssets failingMinifyOps "srcd" "outd"
        [("srcd/a.css", Except.ok [1]), ("srcd/b.js", Except.ok [2]),
         ("srcd/c.css", Except.ok [3])] =
      ((runWalk failingMinifyOps "outd" [("srcd/a.css", "a.css", Except.ok [1])]
          (removeUnder "outd" [("srcd/a.css", Except.ok [1]), ("srcd/b.js", Except.ok [2]),
            ("srcd/c.css", Except.ok [3])]) []).1,
        Except.error ("failed to process assets: failed to minify source: unexpected token")) :=
  ⟨rfl, c8_fail_fast failingMinifyOps "srcd" "outd"
    [("srcd/a.css", Except.ok [1]), ("srcd/b.js", Except.ok [2]), ("srcd/c.css", Except.ok [3])]
    [("srcd/a.css", "a.css", Except.ok [1])]
    ("srcd/b.js", "b.js", Except.ok [2])
    [("srcd/c.css", "c.css", Except.ok [3])]
    "failed to minify source: unexpected token" rfl (by decide) rfl⟩

/-- C1: after a successful run over disjoint source and output trees, the
manifest has exactly one entry per source file — its key the file's
relative path, in walk order, with no other entries — and every entry's
value names a file present under the output directory.  `hdisj` keeps the
initial source files out of the deleted output directory, and `_hW`/`_hWm`
require that no written path (output files, manifest) lands below the
source directory: together they formalize "distinct" as non-overlapping
trees and pin the run to the regime where the model's snapshot walk
coincides with Go's live `filepath.Walk` — with the output directory
nested inside the source tree, the live walk would also pick up the run's
own freshly written files. -/
theorem c1_manifest_completeness (ops : ExternalOps) (sourceDir outputDir : String)
    (fs fsF : FileSys) (man : List (String × String))
    (hnodup : (keysOf fs).Nodup)
    (hdisj : ∀ e ∈ fs, underDir sourceDir e.1 = true → underDir outputDir e.1 = false)
    (hrun : processAssets ops sourceDir outputDir fs = (fsF, Except.ok man))
    (_hW : ∀ p ∈ man, underDir sourceDir (goJoin outputDir p.2) = false)
    (_hWm : underDir sourceDir (goJoin outputDir "manifest.json") = false) :
    man.map Prod.fst = (filesUnder sourceDir fs).map (fun e => relFrom sourceDir e.1)
    ∧ (man.map Prod.fst).Nodup
    ∧ (∀ p ∈ man, goJoin outputDir p.2 ∈ keysOf fsF) := by
  obtain ⟨fs2, hrw, hwm, hfsF⟩ := processAssets_ok_elim ops sourceDir outputDir fs fsF man hrun
  have hman := runWalk_ok_man ops outputDir _ _ _ _ _ hrw
  have hwalkeq : walkFiles sourceDir (removeUnder outputDir fs) = walkFiles sourceDir fs := by
    unfold walkFiles
    rw [filesUnder_removeUnder sourceDir outputDir fs hdisj]
  have hkeys : man.map Prod.fst =
      (filesUnder sourceDir fs).map (fun e => relFrom sourceDir e.1) := by
    rw [hman, List.nil_append, hwalkeq]
    unfold walkFiles
    rw [List.map_map, List.map_map]
    rfl
  refine ⟨hkeys, ?_, ?_⟩
  · rw [hkeys]
    have hsub : List.Sublist (filesUnder sourceDir fs) fs := List.filter_sublist fs
    have hkn : ((filesUnder sourceDir fs).map Prod.fst).Nodup :=
      List.Nodup.sublist (List.Sublist.map Prod.fst hsub) hnodup
    refine List.Nodup.map_on ?_ (List.Nodup.of_map Prod.fst hkn)
    intro x hx y hy hxy
    simp only [filesUnder] at hx hy
    have hx1 : underDir sourceDir x.1 = true := (List.mem_filter.mp hx).2
    have hy1 : underDir sourceDir y.1 = true := (List.mem_filter.mp hy).2
    simp only [underDir] at hx1 hy1
    obtain ⟨tx, htx⟩ := List.isPrefixOf_iff_prefix.mp hx1
    obtain ⟨ty, hty⟩ := List.isPrefixOf_iff_prefix.mp hy1
    have hlen : sourceDir.data.length + 1 = (sourceDir.data ++ ['/']).length := by simp
    have hdx : x.1.data.drop (sourceDir.data.length + 1) = tx := by
      rw [← htx, hlen, List.drop_left]
    have hdy : y.1.data.drop (sourceDir.data.length + 1) = ty := by
      rw [← hty, hlen, List.drop_left]
    have h2 : x.1.data.drop (sourceDir.data.length + 1) =
        y.1.data.drop (sourceDir.data.length + 1) := congrArg String.data hxy
    rw [hdx, hdy] at h2
    have hxy1 : x.1 = y.1 := by
      apply String.ext
      rw [← htx, ← hty, h2]
    exact List.inj_on_of_nodup_map hnodup (List.mem_of_mem_filter hx)
      (List.mem_of_mem_filter hy) hxy1
  · intro p hp
    rcases (runWalk_keys ops outputDir _ _ _ _ _ hrw).2 p hp with hin | hout
    · simp at hin
    · rw [hfsF]
      exact writeFile_keys_mono _ _ _ _ hout

/-- Witness for C1 at a concrete two-file tree with disjoint source and
output directories. -/
theorem c1_manifest_completeness_witness :
    (keysOf [("srcd/app.js", Except.ok ([9, 8, 7] : Bytes)),
      ("srcd/sub/style.css", Except.ok [4, 5])]).Nodup
    ∧ List.map Prod.fst [("app.js", "app-03000000.js"), ("sub/style.css", "sub/style-02000000.css")] =
      (filesUnder "srcd" [("srcd/app.js", Except.ok [9, 8, 7]),
        ("srcd/sub/style.css", Except.ok [4, 5])]).map (fun e => relFrom "srcd" e.1) := by
  refine ⟨by decide, ?_⟩
  exact (c1_manifest_completeness sampleOps "srcd" "outd"
    [("srcd/app.js", Except.ok [9, 8, 7]), ("srcd/sub/style.css", Except.ok [4, 5])] _
    [("app.js", "app-03000000.js"), ("sub/style.css", "sub/style-02000000.css")]
    (by decide) (by decide) rfl (by decide) (by decide)).1

/-- C4: running the pipeline a second time on the output of a first run —
the source tree unchanged because no output lands under it — reproduces the
identical manifest, keys and values; and because the run starts by deleting
the output directory, every path below the output directory after a
complete run is a current output: the manifest file or a fingerprinted file
named by a manifest entry, never a leftover of earlier state. -/
theorem c4_rebuild_clean (ops : ExternalOps) (sourceDir outputDir : String)
    (fs0 fs1 : FileSys) (man1 : List (String × String))
    (hrun : processAssets ops sourceDir outputDir fs0 = (fs1, Except.ok man1))
    (hW : ∀ p ∈ man1, underDir sourceDir (goJoin outputDir p.2) = false)
    (hWm : underDir sourceDir (goJoin outputDir "manifest.json") = false) :
    (processAssets ops sourceDir outputDir fs1).2 = Except.ok man1
    ∧ (∀ k ∈ keysOf fs1, underDir outputDir k = true →
        k = goJoin outputDir "manifest.json" ∨ ∃ p ∈ man1, k = goJoin outputDir p.2) := by
  obtain ⟨fs2, hrw, hwm, hfsF⟩ := processAssets_ok_elim ops sourceDir outputDir fs0 fs1 man1 hrun
  constructor
  · have h1 : fs2.filter (fun e => underDir sourceDir e.1 && !underDir outputDir e.1) =
        (removeUnder outputDir fs0).filter
          (fun e => underDir sourceDir e.1 && !underDir outputDir e.1) := by
      have := runWalk_filter ops outputDir
        (fun s => underDir sourceDir s && !underDir outputDir s) _ _ _ _ _ hrw
        (fun p hp => by simp [hW p hp])
      simpa using this
    have h2 : fs1.filter (fun e => underDir sourceDir e.1 && !underDir outputDir e.1) =
        fs2.filter (fun e => underDir sourceDir e.1 && !underDir outputDir e.1) := by
      rw [hfsF]
      have := writeFile_filter_eq (goJoin outputDir "manifest.json") (encodeManifest man1)
        (fun s => underDir sourceDir s && !underDir outputDir s) (by simp [hWm]) fs2
      simpa using this
    have h3 : (removeUnder outputDir fs0).filter
          (fun e => underDir sourceDir e.1 && !underDir outputDir e.1) =
        fs0.filter (fun e => underDir sourceDir e.1 && !underDir outputDir e.1) := by
      unfold removeUnder
      rw [List.filter_filter]
      apply List.filter_congr
      intro a _
      cases underDir sourceDir a.1 <;> cases underDir outputDir a.1 <;> rfl
    have hwq : walkFiles sourceDir (removeUnder outputDir fs1) =
        walkFiles sourceDir (removeUnder outputDir fs0) := by
      rw [walkFiles_removeUnder, walkFiles_removeUnder, h2.trans (h1.trans h3)]
    rw [processAssets_snd_congr ops sourceDir outputDir fs1 fs0 hwq, hrun]
  · intro k hk hkout
    rw [hfsF] at hk
    rcases writeFile_keys_subset _ _ _ _ hk with rfl | hk2
    · exact Or.inl rfl
    · rcases runWalk_keys_subset ops outputDir _ _ _ _ _ hrw k hk2 with hkw | hout
      · exfalso
        simp only [keysOf, removeUnder, List.mem_map] at hkw
        obtain ⟨e, he, hek⟩ := hkw
        have hne := (List.mem_filter.mp he).2
        rw [hek] at hne
        simp [hkout] at hne
      · exact Or.inr hout

/-- Witness for C4: a second run over the first run's output reproduces the
manifest. -/
theorem c4_rebuild_clean_witness :
    (processAssets sampleOps "srcd" "outd"
      (processAssets sampleOps "srcd" "outd"
        [("srcd/app.js", Except.ok [9, 8, 7])]).1).2 =
      Except.ok [("app.js", "app-03000000.js")] := by
  have h := (c4_rebuild_clean sampleOps "srcd" "outd"
    [("srcd/app.js", Except.ok [9, 8, 7])] _ [("app.js", "app-03000000.js")]
    rfl (by decide) (by decide)).1
  exact h

/-! ## Loader decode characterization (for C3) -/

/-- Whether a JSON value is a string literal. -/
def isStrJson : Json → Bool
  | Json.str _ => true
  | _ => false

/-- Whether a JSON value decodes into a Go `map[string]string` without
error: `null` or an object whose member values are all strings. -/
def goodStringMap : Json → Bool
  | Json.null => true
  | Json.obj ms => ms.all (fun m => isStrJson m.2)
  | _ => false

/-- Whether a top-level JSON value can decode into the `AssetManifest`
struct at all: only objects and `null` can, every other value is rejected
by `encoding/json`. -/
def topLevelShapeOk : Json → Bool
  | Json.null => true
  | Json.obj _ => true
  | _ => false

theorem decodeStringPairs_ok (ms : List (String × Json)) (acc : List (String × String))
    (h : ms.all (fun m => isStrJson m.2) = true) :
    ∃ m, decodeStringPairs ms acc = Except.ok m := by
  induction ms generalizing acc with
  | nil => exact ⟨acc, rfl⟩
  | cons a t ih =>
    obtain ⟨k, v⟩ := a
    simp only [List.all_cons, Bool.and_eq_true] at h
    obtain ⟨hv, ht⟩ := h
    cases v with
    | str s => exact ih _ ht
    | null => simp [isStrJson] at hv
    | bool b => simp [isStrJson] at hv
    | num l => simp [isStrJson] at hv
    | arr l => simp [isStrJson] at hv
    | obj l => simp [isStrJson] at hv

theorem decodeStringPairs_err (ms : List (String × Json)) (acc : List (String × String))
    (h : ms.all (fun m => isStrJson m.2) = false) :
    ∃ e, decodeStringPairs ms acc = Except.error e := by
  induction ms generalizing acc with
  | nil => simp [List.all_nil] at h
  | cons a t ih =>
    obtain ⟨k, v⟩ := a
    cases v with
    | str s =>
      simp only [List.all_cons, isStrJson, Bool.true_and] at h
      exact ih _ h
    | null => exact ⟨_, rfl⟩
    | bool b => exact ⟨_, rfl⟩
    | num l => exact ⟨_, rfl⟩
    | arr l => exact ⟨_, rfl⟩
    | obj l => exact ⟨_, rfl⟩

theorem decodeStringMap_spec (acc : List (String × String)) (v : Json) :
    (goodStringMap v = true → ∃ m, decodeStringMap acc v = Except.ok m)
    ∧ (goodStringMap v = false → ∃ e, decodeStringMap acc v = Except.error e) := by
  cases v with
  | null => exact ⟨fun _ => ⟨[], rfl⟩, fun h => by simp [goodStringMap] at h⟩
  | obj ms =>
    exact ⟨fun h => decodeStringPairs_ok ms acc h, fun h => decodeStringPairs_err ms acc h⟩
  | bool b => exact ⟨fun h => by simp [goodStringMap] at h, fun _ => ⟨_, rfl⟩⟩
  | num l => exact ⟨fun h => by simp [goodStringMap] at h, fun _ => ⟨_, rfl⟩⟩
  | str s => exact ⟨fun h => by simp [goodStringMap] at h, fun _ => ⟨_, rfl⟩⟩
  | arr l => exact ⟨fun h => by simp [goodStringMap] at h, fun _ => ⟨_, rfl⟩⟩

theorem decodeMembers_ok (ms : List (String × Json)) (acc : List (String × String))
    (h : ∀ m ∈ ms, equalFold m.1 "assets" = true → goodStringMap m.2 = true) :
    ∃ r, decodeMembers ms acc = Except.ok r := by
  induction ms generalizing acc with
  | nil => exact ⟨⟨acc⟩, rfl⟩
  | cons a t ih =>
    obtain ⟨k, v⟩ := a
    by_cases hk : equalFold k "assets" = true
    · obtain ⟨m, hm⟩ := (decodeStringMap_spec acc v).1 (h (k, v) (List.mem_cons_self _ _) hk)
      have := ih m (fun u hu => h u (List.mem_cons_of_mem _ hu))
      obtain ⟨r, hr⟩ := this
      exact ⟨r, by simp only [decodeMembers, hk, if_true, hm, hr]⟩
    · obtain ⟨r, hr⟩ := ih acc (fun u hu => h u (List.mem_cons_of_mem _ hu))
      exact ⟨r, by simp only [decodeMembers, if_neg hk, hr]⟩

theorem decodeMembers_skip (ms : List (String × Json)) (acc : List (String × String))
    (h : ∀ m ∈ ms, equalFold m.1 "assets" = false) :
    decodeMembers ms acc = Except.ok ⟨acc⟩ := by
  induction ms generalizing acc with
  | nil => rfl
  | cons a t ih =>
    obtain ⟨k, v⟩ := a
    have hk := h (k, v) (List.mem_cons_self _ _)
    have := ih acc (fun u hu => h u (List.mem_cons_of_mem _ hu))
    simp only [decodeMembers, hk, Bool.false_eq_true, if_false]
    exact this

theorem decodeMembers_err (pre : List (String × Json)) (k : String) (v : Json)
    (rest : List (String × Json)) (acc : List (String × String))
    (hpre : ∀ m ∈ pre, equalFold m.1 "assets" = true → goodStringMap m.2 = true)
    (hk : equalFold k "assets" = true) (hv : goodStringMap v = false) :
    ∃ e, decodeMembers (pre ++ (k, v) :: rest) acc = Except.error e := by
  induction pre generalizing acc with
  | nil =>
    obtain ⟨e, he⟩ := (decodeStringMap_spec acc v).2 hv
    exact ⟨e, by simp only [List.nil_append, decodeMembers, hk, if_true, he]⟩
  | cons a t ih =>
    obtain ⟨k2, v2⟩ := a
    by_cases hk2 : equalFold k2 "assets" = true
    · obtain ⟨m, hm⟩ := (decodeStringMap_spec acc v2).1
        (hpre (k2, v2) (List.mem_cons_self _ _) hk2)
      obtain ⟨e, he⟩ := ih m (fun u hu => hpre u (List.mem_cons_of_mem _ hu))
      exact ⟨e, by simp only [List.cons_append, decodeMembers, hk2, if_true, hm]; exact he⟩
    · obtain ⟨e, he⟩ := ih acc (fun u hu => hpre u (List.mem_cons_of_mem _ hu))
      exact ⟨e, by simp only [List.cons_append, decodeMembers, if_neg hk2]; exact he⟩

/-- C3 counterexample: the claim demands a load error whenever the
top-level `assets` key is missing, and whenever the `assets` value is not
an object of string-to-string pairs; but `NewLoader` succeeds on the empty
JSON object (missing key — Go struct decoding leaves a missing field at
its zero value) and on a `null` assets value (decoding `null` into a map
sets it to nil without error), returning a usable loader with an empty
assets map in both cases. -/
theorem c3_counterexample :
    NewLoader [("manifest.json", Except.ok "\x7b\x7d")] "manifest.json" =
      Except.ok ⟨⟨[]⟩⟩
    ∧ isError (NewLoader [("manifest.json", Except.ok "\x7b\x7d")] "manifest.json") = false
    ∧ NewLoader [("manifest.json", Except.ok "\x7b\"assets\":null\x7d")] "manifest.json" =
      Except.ok ⟨⟨[]⟩⟩
    ∧ isError (NewLoader [("manifest.json", Except.ok "\x7b\"assets\":null\x7d")]
        "manifest.json") = false :=
  ⟨rfl, rfl, rfl, rfl⟩

/-- C3 amended: `NewLoader` fails exactly on a missing or unreadable file,
invalid JSON, a parseable top-level value that is neither an object nor
`null` (a string, number, boolean or array), or a first ill-formed
`assets` member (a value neither null nor an all-string object, e.g. the
string `not-an-object`); a top-level object with no `assets` member —
extra keys included — and a `null` assets value both load successfully
with an empty assets map. -/
theorem c3_load_failure (filesys : TextFS) (mp : String) :
    (lookupAssoc filesys mp = none → isError (NewLoader filesys mp) = true)
    ∧ (∀ e, lookupAssoc filesys mp = some (Except.error e) →
        isError (NewLoader filesys mp) = true)
    ∧ (∀ text, lookupAssoc filesys mp = some (Except.ok text) → parseJson text = none →
        isError (NewLoader filesys mp) = true)
    ∧ (∀ text v, lookupAssoc filesys mp = some (Except.ok text) →
        parseJson text = some v → topLevelShapeOk v = false →
        isError (NewLoader filesys mp) = true)
    ∧ (∀ text ms, lookupAssoc filesys mp = some (Except.ok text) →
        parseJson text = some (Json.obj ms) →
        (∀ m ∈ ms, equalFold m.1 "assets" = false) →
        NewLoader filesys mp = Except.ok ⟨⟨[]⟩⟩)
    ∧ (∀ text ms, lookupAssoc filesys mp = some (Except.ok text) →
        parseJson text = some (Json.obj ms) →
        (∀ m ∈ ms, equalFold m.1 "assets" = true → goodStringMap m.2 = true) →
        isError (NewLoader filesys mp) = false)
    ∧ (∀ text pre k v rest, lookupAssoc filesys mp = some (Except.ok text) →
        parseJson text = some (Json.obj (pre ++ (k, v) :: rest)) →
        (∀ m ∈ pre, equalFold m.1 "assets" = true → goodStringMap m.2 = true) →
        equalFold k "assets" = true → goodStringMap v = false →
        isError (NewLoader filesys mp) = true) := by
  refine ⟨?_, ?_, ?_, ?_, ?_, ?_, ?_⟩
  · intro h
    simp only [NewLoader, h, isError]
  · intro e h
    simp only [NewLoader, h, isError]
  · intro text h hp
    simp only [NewLoader, h, hp, isError]
  · intro text v h hp hshape
    cases v with
    | null => simp [topLevelShapeOk] at hshape
    | obj ms => simp [topLevelShapeOk] at hshape
    | bool b => simp only [NewLoader, h, hp, decodeAssetManifest, isError]
    | num l => simp only [NewLoader, h, hp, decodeAssetManifest, isError]
    | str s => simp only [NewLoader, h, hp, decodeAssetManifest, isError]
    | arr l => simp only [NewLoader, h, hp, decodeAssetManifest, isError]
  · intro text ms h hp hnone
    simp only [NewLoader, h, hp, decodeAssetManifest, decodeMembers_skip ms [] hnone]
  · intro text ms h hp hgood
    obtain ⟨r, hr⟩ := decodeMembers_ok ms [] hgood
    simp only [NewLoader, h, hp, decodeAssetManifest, hr, isError]
  · intro text pre k v rest h hp hpre hk hv
    obtain ⟨e, he⟩ := decodeMembers_err pre k v rest [] hpre hk hv
    simp only [NewLoader, h, hp, decodeAssetManifest, he, isError]

/-- Witness for C3 amended, covering a missing file, invalid JSON, a
parseable non-object non-null top level, an `assets` value that is not an
object (the spec example), and a manifest with only unknown extra keys,
which loads successfully. -/
theorem c3_load_failure_witness :
    isError (NewLoader [] "manifest.json") = true
    ∧ isError (NewLoader [("manifest.json", Except.ok "\x7b\"assets\":invalid_json\x7d")]
        "manifest.json") = true
    ∧ isError (NewLoader [("manifest.json", Except.ok "true")] "manifest.json") = true
    ∧ isError (NewLoader [("manifest.json", Except.ok "\x7b\"assets\":\"not-an-object\"\x7d")]
        "manifest.json") = true
    ∧ NewLoader [("manifest.json", Except.ok "\x7b\"extra\":true\x7d")] "manifest.json" =
        Except.ok ⟨⟨[]⟩⟩ := by
  refine ⟨(c3_load_failure [] "manifest.json").1 rfl, ?_, ?_, ?_, ?_⟩
  · exact (c3_load_failure [("manifest.json", Except.ok "\x7b\"assets\":invalid_json\x7d")]
      "manifest.json").2.2.1 _ rfl rfl
  · exact (c3_load_failure [("manifest.json", Except.ok "true")]
      "manifest.json").2.2.2.1 _ (Json.bool true) rfl rfl rfl
  · exact (c3_load_failure [("manifest.json", Except.ok "\x7b\"assets\":\"not-an-object\"\x7d")]
      "manifest.json").2.2.2.2.2.2 _ [] "assets" (Json.str "not-an-object") [] rfl rfl
      (by intro m hm; simp at hm) rfl rfl
  · exact (c3_load_failure [("manifest.json", Except.ok "\x7b\"extra\":true\x7d")]
      "manifest.json").2.2.2.2.1 _ [("extra", Json.bool true)] rfl rfl
      (by intro m hm; simp only [List.mem_singleton] at hm; subst hm; rfl)

end Assetid
